import Mathlib

/-!
Shallow embedding of the chunked translation engine in
`translate_book.py` (class `KimiTranslator`): the text chunker
`_split_text_into_chunks`, the per-file task `_process_single_file`
over an abstract filesystem/backend world, and the progress
aggregation of `process_files`.

Texts are lists of characters; paths are plain file names, since every
file involved lives in the one input directory.
-/

namespace EpubTranslation

abbrev Text := List Char

abbrev FileName := List Char

/-- The characters Python `str.splitlines` treats as line boundaries
(`\n`, `\r`, `\v`, `\f`, FS, GS, RS, NEL, LINE SEPARATOR, PARAGRAPH
SEPARATOR); `\r\n` is handled as a single boundary by the splitter. -/
def isLineBreak (c : Char) : Bool :=
  c = '\n' || c = '\r' || c = '\x0b' || c = '\x0c' ||
  c = '\x1c' || c = '\x1d' || c = '\x1e' ||
  c = '\u0085' || c = '\u2028' || c = '\u2029'

/-- Accumulator-passing embedding of Python
`text.splitlines(keepends=True)`: `acc` holds the current line so far,
reversed. -/
def splitlinesAux : List Char → List Char → List (List Char)
  | [], acc => if acc = [] then [] else [acc.reverse]
  | [c], acc =>
    if isLineBreak c then [acc.reverse ++ [c]]
    else [(c :: acc).reverse]
  | c :: d :: rest, acc =>
    if c = '\r' ∧ d = '\n' then (acc.reverse ++ [c, d]) :: splitlinesAux rest []
    else if isLineBreak c then (acc.reverse ++ [c]) :: splitlinesAux (d :: rest) []
    else splitlinesAux (d :: rest) (c :: acc)

/-- `text.splitlines(keepends=True)` from line 44 of `translate_book.py`. -/
def splitlinesKeepends (text : Text) : List Text :=
  splitlinesAux text []

/-- The loop of `_split_text_into_chunks` (lines 49-59): `currentChunk`
is the Python list `current_chunk` of accumulated lines and
`currentLength` the running counter `current_length`.  Note the close
branch fires even when `current_chunk` is empty, exactly as in the
source. -/
def splitChunksAux (maxSize : Nat) : List Text → List Text → Nat → List Text
  | [], currentChunk, _ =>
    if currentChunk.isEmpty then [] else [currentChunk.flatten]
  | line :: rest, currentChunk, currentLength =>
    if currentLength + line.length > maxSize then
      currentChunk.flatten :: splitChunksAux maxSize rest [line] line.length
    else
      splitChunksAux maxSize rest (currentChunk ++ [line]) (currentLength + line.length)

/-- `KimiTranslator._split_text_into_chunks(text, max_size)`
(lines 43-61 of `translate_book.py`). -/
def splitTextIntoChunks (text : Text) (maxSize : Nat) : List Text :=
  splitChunksAux maxSize (splitlinesKeepends text) [] 0

/-- Same loop as `splitChunksAux` but returning each chunk as its list
of constituent lines instead of the joined string; used to reason about
which whole lines each chunk is made of. -/
def groupsAux (maxSize : Nat) : List Text → List Text → Nat → List (List Text)
  | [], currentChunk, _ =>
    if currentChunk.isEmpty then [] else [currentChunk]
  | line :: rest, currentChunk, currentLength =>
    if currentLength + line.length > maxSize then
      currentChunk :: groupsAux maxSize rest [line] line.length
    else
      groupsAux maxSize rest (currentChunk ++ [line]) (currentLength + line.length)

/-- The line groups underlying `splitTextIntoChunks`. -/
def splitIntoGroups (text : Text) (maxSize : Nat) : List (List Text) :=
  groupsAux maxSize (splitlinesKeepends text) [] 0

/-- `pathlib.PurePath.stem`: the file name without its last suffix; the
suffix starts at the last dot, provided that dot is neither the first
nor the last character of the name. -/
def pathStem (name : FileName) : FileName :=
  let j := name.reverse.findIdx (fun c => c = '.')
  if j = name.length then name
  else
    let i := name.length - 1 - j
    if 0 < i ∧ i < name.length - 1 then name.take i else name

/-- `file_path.parent / f"{file_path.stem}_DE.txt"` (line 81); the
parent directory is common to all files and is left implicit. -/
def targetPath (filePath : FileName) : FileName :=
  pathStem filePath ++ String.toList "_DE.txt"

/-- `file_path.parent / f"{file_path.stem}_FAILURE_DE.txt"` (line 82). -/
def failurePath (filePath : FileName) : FileName :=
  pathStem filePath ++ String.toList "_FAILURE_DE.txt"

/-- The whitespace characters of Python `str.strip()` relevant to
UTF-8 book text (ASCII and Latin-1 whitespace; the wider Unicode space
classes are treated the same way by the code and play no role in any
claim). -/
def pyIsSpace (c : Char) : Bool :=
  c = ' ' || c = '\t' || c = '\n' || c = '\r' || c = '\x0b' || c = '\x0c' ||
  c = '\x1c' || c = '\x1d' || c = '\x1e' || c = '\x1f' || c = '\u0085' || c = ' '

/-- `not content.strip()` (line 91): true when the content is empty or
whitespace-only. -/
def stripIsEmpty (content : Text) : Bool :=
  content.all pyIsSpace

/-- `self.max_chunk_size = 3000` (line 35). -/
def maxChunkSize : Nat := 3000

/-- Observable effects of one per-file task: reading a file,
one backend translation call, and an attempted write of a file with
given content. -/
inductive Event where
  | readEv : FileName → Event
  | callEv : Text → Event
  | writeEv : FileName → Text → Event
deriving DecidableEq

/-- The outcome classes a task can report, mirroring the five result
strings of `_process_single_file`: `Übersprungen (existiert)`,
`Übersprungen (leer)`, `ERFOLG`, `FEHLER (Original kopiert)` with the
triggering error, and `KRITISCHER FEHLER` with the I/O error. -/
inductive Outcome where
  | skippedExists : FileName → Outcome
  | skippedEmpty : FileName → Outcome
  | success : FileName → Outcome
  | failure : FileName → String → Outcome
  | critical : FileName → String → Outcome
deriving DecidableEq

/-- The environment of a task during one run: the filesystem existence
check, file reads, the translation backend, and file writes.  Fallible
operations return `Except` with an opaque error description, standing
for a raised Python exception. -/
structure World where
  fileExists : FileName → Bool
  read : FileName → Except String Text
  translate : Text → Except String Text
  write : FileName → Text → Except String Unit

/-- The sequential loop over chunks (lines 97-99): translate each chunk
in order, stopping at the first failing backend call; returns the
translated parts (or the first error) together with the trace of
backend calls made. -/
def runChunks (w : World) : List Text → Except String (List Text) × List Event
  | [] => (Except.ok [], [])
  | c :: rest =>
    match w.translate c with
    | Except.error e => (Except.error e, [Event.callEv c])
    | Except.ok t =>
      match runChunks w rest with
      | (Except.error e, evs) => (Except.error e, Event.callEv c :: evs)
      | (Except.ok ts, evs) => (Except.ok (t :: ts), Event.callEv c :: evs)

/-- The `except` handler of `_process_single_file` (lines 108-116):
re-read the source, write its content to the failure-marked path, and
report `FEHLER`; if the re-read or the copy itself fails, report
`KRITISCHER FEHLER` with that second error instead. -/
def handleFailure (w : World) (filePath failureFile : FileName) (e : String)
    (evs : List Event) : Outcome × List Event :=
  match w.read filePath with
  | Except.error ioe => (Outcome.critical filePath ioe, evs ++ [Event.readEv filePath])
  | Except.ok original =>
    match w.write failureFile original with
    | Except.error ioe =>
      (Outcome.critical filePath ioe,
        evs ++ [Event.readEv filePath, Event.writeEv failureFile original])
    | Except.ok _ =>
      (Outcome.failure filePath e,
        evs ++ [Event.readEv filePath, Event.writeEv failureFile original])

/-- `KimiTranslator._process_single_file` (lines 76-116), returning the
reported outcome together with the trace of filesystem and backend
events.  A `writeEv` records an attempted `open(..., 'w')`/`write`. -/
def processSingleFile (w : World) (filePath : FileName) : Outcome × List Event :=
  let targetFile := targetPath filePath
  let failureFile := failurePath filePath
  if w.fileExists targetFile then (Outcome.skippedExists filePath, [])
  else
    match w.read filePath with
    | Except.error e => handleFailure w filePath failureFile e [Event.readEv filePath]
    | Except.ok content =>
      if stripIsEmpty content then (Outcome.skippedEmpty filePath, [Event.readEv filePath])
      else
        match runChunks w (splitTextIntoChunks content maxChunkSize) with
        | (Except.error e, evs) =>
          handleFailure w filePath failureFile e (Event.readEv filePath :: evs)
        | (Except.ok parts, evs) =>
          let full := List.intercalate ['\n'] parts
          match w.write targetFile full with
          | Except.ok _ =>
            (Outcome.success filePath,
              Event.readEv filePath :: evs ++ [Event.writeEv targetFile full])
          | Except.error e =>
            handleFailure w filePath failureFile e
              (Event.readEv filePath :: evs ++ [Event.writeEv targetFile full])

/-- The eligibility filter of `process_files` (lines 122-125): keep the
globbed files that carry neither the translated nor the failed marker
suffix. -/
def eligibleFiles (files : List FileName) : List FileName :=
  files.filter (fun f =>
    !(String.toList "_DE.txt").isSuffixOf f &&
    !(String.toList "_FAILURE_DE.txt").isSuffixOf f)

/-- The aggregation loop of `process_files` (lines 141-147): one
iteration per completed future, incrementing `completed_count` and
invoking the progress callback with `(completed_count, total_files)`;
the list records the arguments of the successive callback invocations. -/
def progressAux (total : Nat) : List FileName → Nat → List (Nat × Nat)
  | [], _ => []
  | _ :: rest, completed => (completed + 1, total) :: progressAux total rest (completed + 1)

/-- The progress-callback invocations of one `process_files` run whose
tasks complete in the order `order` (an arbitrary permutation of the
eligible files). -/
def processFilesCalls (files order : List FileName) : List (Nat × Nat) :=
  progressAux (eligibleFiles files).length order 0

/-- A world whose target files all exist; used to witness the
Skipped-Exists path. -/
def worldSkip : World :=
  { fileExists := fun _ => true
    read := fun _ => Except.ok (String.toList "hi")
    translate := fun t => Except.ok t
    write := fun _ _ => Except.ok () }

/-- Whether the backend call for a chunk succeeds in world `w`. -/
def translateOk (w : World) (c : Text) : Bool :=
  match w.translate c with
  | Except.ok _ => true
  | Except.error _ => false

/-- Recognizes backend-call events in a task trace. -/
def isCallEv : Event → Bool
  | Event.callEv _ => true
  | _ => false

/-- A world with no pre-existing outputs whose backend rejects every
chunk but whose filesystem works; used to witness the failure path. -/
def worldFail : World :=
  { fileExists := fun _ => false
    read := fun _ => Except.ok (String.toList "hi")
    translate := fun _ => Except.error "boom"
    write := fun _ _ => Except.ok () }

/-- Like `worldFail` but every write also fails; used to witness the
critical path. -/
def worldCrit : World :=
  { fileExists := fun _ => false
    read := fun _ => Except.ok (String.toList "hi")
    translate := fun _ => Except.error "boom"
    write := fun _ _ => Except.error "disk" }

theorem splitlinesAux_flatten (s acc : List Char) :
    (splitlinesAux s acc).flatten = acc.reverse ++ s := by
  induction s, acc using splitlinesAux.induct <;>
    try simp_all [splitlinesAux]
  all_goals
    rename_i h1 hbr ih
  all_goals
    rw [if_neg (fun hc => h1 hc.1 hc.2)]
  all_goals
    simp_all

theorem splitlinesKeepends_flatten (text : Text) :
    (splitlinesKeepends text).flatten = text := by
  simpa using splitlinesAux_flatten text []

theorem splitChunksAux_flatten (maxSize : Nat) :
    ∀ (ls : List Text) (cur : List Text) (n : Nat),
      (splitChunksAux maxSize ls cur n).flatten = cur.flatten ++ ls.flatten := by
  intro ls
  induction ls with
  | nil =>
    intro cur n
    by_cases h : cur.isEmpty <;>
      simp_all [splitChunksAux, List.isEmpty_iff]
  | cons line rest ih =>
    intro cur n
    by_cases h : n + line.length > maxSize <;>
      simp [splitChunksAux, h, ih]

/-- C1: for every input text and every positive bound, concatenating,
in order, the chunks returned by `_split_text_into_chunks` yields the
original text back exactly. -/
theorem chunks_roundtrip (T : Text) (B : Nat) (hB : 0 < B) :
    (splitTextIntoChunks T B).flatten = T := by
  unfold splitTextIntoChunks
  rw [splitChunksAux_flatten]
  simp [splitlinesKeepends_flatten]

theorem chunks_roundtrip_witness :
    0 < 3 ∧ (splitTextIntoChunks (String.toList "ab\ncd") 3).flatten = String.toList "ab\ncd" :=
  ⟨by decide, chunks_roundtrip (String.toList "ab\ncd") 3 (by decide)⟩

theorem splitlinesAux_mem_ne_nil (s acc : List Char) :
    ∀ l ∈ splitlinesAux s acc, l ≠ [] := by
  induction s, acc using splitlinesAux.induct <;>
    try simp_all [splitlinesAux]
  all_goals
    rename_i h1 hbr ih
  all_goals
    rw [if_neg (fun hc => (h1 hc.1) hc.2)]
  all_goals
    simp_all

theorem splitlinesKeepends_mem_ne_nil (T : Text) :
    ∀ l ∈ splitlinesKeepends T, l ≠ [] :=
  splitlinesAux_mem_ne_nil T []

theorem flatten_ne_nil_of_head (cur : List Text) (h : cur ≠ [])
    (h2 : ∀ l ∈ cur, l ≠ []) : cur.flatten ≠ [] := by
  cases cur with
  | nil => exact absurd rfl h
  | cons x xs => simp_all

theorem splitChunksAux_ne_nil (B : Nat) :
    ∀ (ls cur : List Text) (n : Nat), cur ≠ [] ∨ ls ≠ [] →
      splitChunksAux B ls cur n ≠ [] := by
  intro ls
  induction ls with
  | nil =>
    intro cur n h
    rcases h with h | h
    · simp [splitChunksAux, List.isEmpty_iff, h]
    · exact absurd rfl h
  | cons line rest ih =>
    intro cur n _
    by_cases hc : n + line.length > B
    · simp [splitChunksAux, hc]
    · rw [splitChunksAux, if_neg hc]
      exact ih (cur ++ [line]) (n + line.length) (Or.inl (by simp))

theorem splitChunksAux_mem_ne_nil (B : Nat) :
    ∀ (ls cur : List Text) (n : Nat), (∀ l ∈ ls, l ≠ []) → cur ≠ [] →
      (∀ l ∈ cur, l ≠ []) → ∀ c ∈ splitChunksAux B ls cur n, c ≠ [] := by
  intro ls
  induction ls with
  | nil =>
    intro cur n _ hcur hcur2 c hc
    rw [splitChunksAux, if_neg (by simp [List.isEmpty_iff, hcur])] at hc
    simp only [List.mem_singleton] at hc
    exact hc ▸ flatten_ne_nil_of_head cur hcur hcur2
  | cons line rest ih =>
    intro cur n hls hcur hcur2 c hc
    by_cases hgt : n + line.length > B
    · rw [splitChunksAux, if_pos hgt] at hc
      rcases List.mem_cons.mp hc with h | h
      · exact h ▸ flatten_ne_nil_of_head cur hcur hcur2
      · refine ih [line] line.length (fun l hl => hls l (List.mem_cons_of_mem _ hl))
          (by simp) ?_ c h
        intro l hl
        simp only [List.mem_singleton] at hl
        exact hl ▸ hls line (List.mem_cons_self line rest)
    · rw [splitChunksAux, if_neg hgt] at hc
      refine ih (cur ++ [line]) (n + line.length)
        (fun l hl => hls l (List.mem_cons_of_mem _ hl)) (by simp) ?_ c hc
      intro l hl
      rcases List.mem_append.mp hl with h | h
      · exact hcur2 l h
      · simp only [List.mem_singleton] at h
        exact h ▸ hls line (List.mem_cons_self line rest)

theorem splitChunksAux_tail_ne_nil (B : Nat) :
    ∀ (ls cur : List Text) (n : Nat), (∀ l ∈ ls, l ≠ []) →
      (∀ l ∈ cur, l ≠ []) → ∀ c ∈ (splitChunksAux B ls cur n).tail, c ≠ [] := by
  intro ls
  induction ls with
  | nil =>
    intro cur n _ _ c hc
    by_cases h : cur.isEmpty <;> simp [splitChunksAux, h] at hc
  | cons line rest ih =>
    intro cur n hls hcur2 c hc
    have hline : line ≠ [] := hls line (List.mem_cons_self line rest)
    have hrest : ∀ l ∈ rest, l ≠ [] := fun l hl => hls l (List.mem_cons_of_mem _ hl)
    by_cases hgt : n + line.length > B
    · rw [splitChunksAux, if_pos hgt] at hc
      simp only [List.tail_cons] at hc
      refine splitChunksAux_mem_ne_nil B rest [line] line.length hrest (by simp) ?_ c hc
      intro l hl
      simp only [List.mem_singleton] at hl
      exact hl ▸ hline
    · rw [splitChunksAux, if_neg hgt] at hc
      refine ih (cur ++ [line]) (n + line.length) hrest ?_ c hc
      intro l hl
      rcases List.mem_append.mp hl with h | h
      · exact hcur2 l h
      · simp only [List.mem_singleton] at h
        exact h ▸ hline

/-- C2 as stated is false: on the 4-character text `aaaa` with bound 3
the first line is longer than the bound, so the loop closes the (still
empty) current chunk and the returned list starts with an empty chunk
even though the input is nonempty. -/
theorem chunks_nonempty_counterexample :
    String.toList "aaaa" ≠ [] ∧
      [] ∈ splitTextIntoChunks (String.toList "aaaa") 3 := by
  decide

/-- C2 amended: an empty text yields an empty chunk list and a nonempty
text a nonempty one; every chunk after the first is nonempty; and the
first chunk is empty exactly when the first line of the text is longer
than the bound (in that one case the code emits a leading empty chunk). -/
theorem chunks_nonempty_amended (T : Text) (B : Nat) (hB : 0 < B) :
    (splitTextIntoChunks T B = [] ↔ T = []) ∧
    (∀ c ∈ (splitTextIntoChunks T B).tail, c ≠ []) ∧
    (∀ l ls, splitlinesKeepends T = l :: ls →
      ((splitTextIntoChunks T B).head? = some [] ↔ B < l.length)) := by
  refine ⟨⟨fun h => ?_, fun h => by subst h; rfl⟩, ?_, ?_⟩
  · by_contra hT
    have hsl : splitlinesKeepends T ≠ [] := by
      intro hnil
      exact hT (by simpa [hnil] using (splitlinesKeepends_flatten T).symm)
    exact splitChunksAux_ne_nil B (splitlinesKeepends T) [] 0 (Or.inr hsl) h
  · exact splitChunksAux_tail_ne_nil B (splitlinesKeepends T) [] 0
      (splitlinesKeepends_mem_ne_nil T) (by simp)
  · intro l ls hl
    have hlne : l ≠ [] := splitlinesKeepends_mem_ne_nil T l (hl ▸ List.mem_cons_self l ls)
    have hlsne : ∀ x ∈ ls, x ≠ [] :=
      fun x hx => splitlinesKeepends_mem_ne_nil T x (hl ▸ List.mem_cons_of_mem _ hx)
    unfold splitTextIntoChunks
    rw [hl]
    by_cases hgt : 0 + l.length > B
    · rw [splitChunksAux, if_pos hgt]
      simp only [List.head?_cons, List.flatten_nil, Option.some.injEq, true_iff]
      omega
    · rw [splitChunksAux, if_neg hgt]
      simp only [List.nil_append]
      have hne : ∀ c ∈ splitChunksAux B ls [l] (0 + l.length), c ≠ [] := by
        refine splitChunksAux_mem_ne_nil B ls [l] (0 + l.length) hlsne (by simp) ?_
        intro x hx
        simp only [List.mem_singleton] at hx
        exact hx ▸ hlne
      rcases hres : splitChunksAux B ls [l] (0 + l.length) with _ | ⟨c, cs⟩
      · exact absurd hres (splitChunksAux_ne_nil B ls [l] (0 + l.length) (Or.inl (by simp)))
      · have hcne : c ≠ [] := hne c (hres ▸ List.mem_cons_self c cs)
        simp only [List.head?_cons, Option.some.injEq]
        constructor
        · intro h
          exact absurd h hcne
        · intro h
          omega

theorem chunks_nonempty_amended_witness :
    0 < 3 ∧
    ((splitTextIntoChunks (String.toList "ab\ncd") 3 = [] ↔ String.toList "ab\ncd" = []) ∧
    (∀ c ∈ (splitTextIntoChunks (String.toList "ab\ncd") 3).tail, c ≠ []) ∧
    (∀ l ls, splitlinesKeepends (String.toList "ab\ncd") = l :: ls →
      ((splitTextIntoChunks (String.toList "ab\ncd") 3).head? = some [] ↔ 3 < l.length))) :=
  ⟨by decide, chunks_nonempty_amended (String.toList "ab\ncd") 3 (by decide)⟩

theorem splitChunksAux_eq_map_groups (B : Nat) :
    ∀ (ls cur : List Text) (n : Nat),
      splitChunksAux B ls cur n = (groupsAux B ls cur n).map (fun g => g.flatten) := by
  intro ls
  induction ls with
  | nil =>
    intro cur n
    by_cases h : cur.isEmpty <;> simp [splitChunksAux, groupsAux, h]
  | cons line rest ih =>
    intro cur n
    by_cases h : n + line.length > B <;>
      simp [splitChunksAux, groupsAux, h, ih]

theorem groupsAux_flatten (B : Nat) :
    ∀ (ls cur : List Text) (n : Nat),
      (groupsAux B ls cur n).flatten = cur ++ ls := by
  intro ls
  induction ls with
  | nil =>
    intro cur n
    by_cases h : cur.isEmpty <;> simp_all [groupsAux, List.isEmpty_iff]
  | cons line rest ih =>
    intro cur n
    by_cases h : n + line.length > B <;> simp [groupsAux, h, ih]

/-- The invariant of the chunking loop: every emitted group either
joins to at most `B` characters or is a single line longer than `B`. -/
theorem groupsAux_bound (B : Nat) :
    ∀ (ls cur : List Text) (n : Nat), n = cur.flatten.length →
      (cur.flatten.length ≤ B ∨ ∃ l, cur = [l] ∧ B < l.length) →
      ∀ g ∈ groupsAux B ls cur n,
        g.flatten.length ≤ B ∨ ∃ l, g = [l] ∧ B < l.length := by
  intro ls
  induction ls with
  | nil =>
    intro cur n _ hinv g hg
    rw [groupsAux] at hg
    split at hg
    · simp at hg
    · simp only [List.mem_singleton] at hg
      exact hg ▸ hinv
  | cons line rest ih =>
    intro cur n hn hinv g hg
    by_cases hgt : n + line.length > B
    · rw [groupsAux, if_pos hgt] at hg
      rcases List.mem_cons.mp hg with h | h
      · exact h ▸ hinv
      · refine ih [line] line.length (by simp) ?_ g h
        by_cases hlb : line.length ≤ B
        · left; simpa using hlb
        · right; exact ⟨line, rfl, by omega⟩
    · rw [groupsAux, if_neg hgt] at hg
      refine ih (cur ++ [line]) (n + line.length) (by simp [hn]) ?_ g hg
      left
      simp only [List.flatten_append, List.length_append, List.flatten_cons,
        List.flatten_nil, List.append_nil]
      omega

/-- C6: a chunk is the concatenation of a consecutive group of lines;
any group of two or more lines joins to at most `max_size` characters,
and a chunk longer than `max_size` is necessarily a single over-long
line. -/
theorem chunk_size_bound (T : Text) (B : Nat) (hB : 0 < B) :
    splitTextIntoChunks T B = (splitIntoGroups T B).map (fun g => g.flatten) ∧
    (∀ g ∈ splitIntoGroups T B, 1 < g.length → g.flatten.length ≤ B) ∧
    (∀ g ∈ splitIntoGroups T B, B < g.flatten.length →
      ∃ l, g = [l] ∧ B < l.length) := by
  have hbound := groupsAux_bound B (splitlinesKeepends T) [] 0 (by simp)
    (Or.inl (by simp))
  refine ⟨splitChunksAux_eq_map_groups B (splitlinesKeepends T) [] 0, ?_, ?_⟩
  · intro g hg hlen
    rcases hbound g hg with h | ⟨l, hl, _⟩
    · exact h
    · rw [hl] at hlen
      simp at hlen
  · intro g hg hlong
    rcases hbound g hg with h | h
    · omega
    · exact h

theorem chunk_size_bound_witness :
    0 < 3 ∧
    (splitTextIntoChunks (String.toList "ab\ncd") 3 =
      (splitIntoGroups (String.toList "ab\ncd") 3).map (fun g => g.flatten) ∧
    (∀ g ∈ splitIntoGroups (String.toList "ab\ncd") 3,
      1 < g.length → g.flatten.length ≤ 3) ∧
    (∀ g ∈ splitIntoGroups (String.toList "ab\ncd") 3,
      3 < g.flatten.length → ∃ l, g = [l] ∧ 3 < l.length)) :=
  ⟨by decide, chunk_size_bound (String.toList "ab\ncd") 3 (by decide)⟩

/-- C5: the chunks are joins of a partition of the kept-ends lines of
the text, so every line — in particular every line longer than the
bound — appears whole inside exactly one chunk: an over-long line is
alone in its group, and any chunk longer than the bound is itself one
of the lines of the text. -/
theorem longline_never_split (T : Text) (B : Nat) (hB : 0 < B) :
    splitTextIntoChunks T B = (splitIntoGroups T B).map (fun g => g.flatten) ∧
    (splitIntoGroups T B).flatten = splitlinesKeepends T ∧
    (∀ g ∈ splitIntoGroups T B, ∀ l ∈ g, B < l.length → g = [l]) ∧
    (∀ c ∈ splitTextIntoChunks T B, B < c.length → c ∈ splitlinesKeepends T) := by
  have hbound := groupsAux_bound B (splitlinesKeepends T) [] 0 (by simp)
    (Or.inl (by simp))
  have hmap := splitChunksAux_eq_map_groups B (splitlinesKeepends T) [] 0
  have hflat : (splitIntoGroups T B).flatten = splitlinesKeepends T := by
    simpa using groupsAux_flatten B (splitlinesKeepends T) [] 0
  refine ⟨hmap, hflat, ?_, ?_⟩
  · intro g hg l hl hlong
    rcases hbound g hg with h | ⟨m, hm, _⟩
    · exfalso
      have hle : l.length ≤ g.flatten.length := by
        have hmem : l.length ∈ g.map List.length := List.mem_map_of_mem _ hl
        have := List.single_le_sum (fun x _ => Nat.zero_le x) l.length hmem
        simpa [List.length_flatten] using this
      omega
    · rw [hm] at hl
      simp only [List.mem_singleton] at hl
      exact hl ▸ hm
  · intro c hc hlong
    unfold splitTextIntoChunks at hc
    rw [hmap] at hc
    rcases List.mem_map.mp hc with ⟨g, hg, hgc⟩
    subst hgc
    rcases hbound g hg with h | ⟨l, hl, _⟩
    · omega
    · have hcl : g.flatten = l := by simp [hl]
      rw [hcl, ← hflat]
      exact List.mem_flatten.mpr ⟨g, hg, by simp [hl]⟩

theorem longline_never_split_witness :
    0 < 3 ∧
    (splitTextIntoChunks (String.toList "abcde\nfg") 3 =
      (splitIntoGroups (String.toList "abcde\nfg") 3).map (fun g => g.flatten) ∧
    (splitIntoGroups (String.toList "abcde\nfg") 3).flatten =
      splitlinesKeepends (String.toList "abcde\nfg") ∧
    (∀ g ∈ splitIntoGroups (String.toList "abcde\nfg") 3,
      ∀ l ∈ g, 3 < l.length → g = [l]) ∧
    (∀ c ∈ splitTextIntoChunks (String.toList "abcde\nfg") 3,
      3 < c.length → c ∈ splitlinesKeepends (String.toList "abcde\nfg"))) :=
  ⟨by decide, longline_never_split (String.toList "abcde\nfg") 3 (by decide)⟩

/-- C7: when the success target already exists the task returns at
once: the outcome is Skipped-Exists and the event trace is empty, so no
backend call happens and no file is read or written. -/
theorem skip_existing_no_calls (w : World) (fp : FileName)
    (h : w.fileExists (targetPath fp) = true) :
    processSingleFile w fp = (Outcome.skippedExists fp, []) := by
  unfold processSingleFile
  simp [h]

theorem skip_existing_no_calls_witness :
    worldSkip.fileExists (targetPath (String.toList "a.txt")) = true ∧
    processSingleFile worldSkip (String.toList "a.txt") =
      (Outcome.skippedExists (String.toList "a.txt"), []) :=
  ⟨by decide, skip_existing_no_calls worldSkip (String.toList "a.txt") (by decide)⟩

theorem progressAux_eq (l : List FileName) :
    ∀ (total k : Nat),
      progressAux total l k =
        (List.range l.length).map (fun i => (k + i + 1, total)) := by
  induction l with
  | nil => intro total k; rfl
  | cons x rest ih =>
    intro total k
    rw [progressAux, ih, List.length_cons, List.range_succ_eq_map]
    simp only [List.map_cons, List.map_map, Function.comp, Nat.add_zero]
    have harith : ∀ i : Nat, k + 1 + i + 1 = k + (i + 1) + 1 := by omega
    simp [harith]

theorem progressAux_length (l : List FileName) :
    ∀ (total k : Nat), (progressAux total l k).length = l.length := by
  induction l with
  | nil => intro total k; rfl
  | cons x rest ih =>
    intro total k
    rw [progressAux, List.length_cons, List.length_cons, ih]

/-- C4: however the per-file tasks interleave, the aggregation loop of
`process_files` invokes the progress callback once per eligible file,
with first argument running through 1, 2, ..., N in that order (N the
number of eligible files) and second argument constantly N. -/
theorem progress_calls_exact (files order : List FileName)
    (h : order.Perm (eligibleFiles files)) :
    processFilesCalls files order =
      (List.range (eligibleFiles files).length).map
        (fun i => (i + 1, (eligibleFiles files).length)) := by
  unfold processFilesCalls
  rw [progressAux_eq, h.length_eq]
  simp

theorem progress_calls_exact_witness :
    (String.toList "b.txt" :: [String.toList "a.txt"]).Perm
      (eligibleFiles [String.toList "a.txt", String.toList "b.txt"]) ∧
    processFilesCalls [String.toList "a.txt", String.toList "b.txt"]
        (String.toList "b.txt" :: [String.toList "a.txt"]) =
      (List.range (eligibleFiles [String.toList "a.txt", String.toList "b.txt"]).length).map
        (fun i =>
          (i + 1, (eligibleFiles [String.toList "a.txt", String.toList "b.txt"]).length)) :=
  ⟨by decide, progress_calls_exact [String.toList "a.txt", String.toList "b.txt"]
    (String.toList "b.txt" :: [String.toList "a.txt"]) (by decide)⟩

theorem targetPath_ne_failurePath (fp : FileName) :
    targetPath fp ≠ failurePath fp := by
  intro h
  have hlen := congrArg List.length h
  have h7 : (String.toList "_DE.txt").length = 7 := rfl
  have h15 : (String.toList "_FAILURE_DE.txt").length = 15 := rfl
  simp only [targetPath, failurePath, List.length_append, h7, h15] at hlen
  omega

theorem runChunks_events (w : World) :
    ∀ cs, ∀ ev ∈ (runChunks w cs).snd, ∃ c, ev = Event.callEv c := by
  intro cs
  induction cs with
  | nil =>
    intro ev hev
    simp [runChunks] at hev
  | cons c rest ih =>
    intro ev hev
    rw [runChunks] at hev
    cases htr : w.translate c with
    | error e =>
      rw [htr] at hev
      simp at hev
      exact ⟨c, hev⟩
    | ok t =>
      rw [htr] at hev
      rcases hr : runChunks w rest with ⟨r, evs⟩
      rw [hr] at hev
      have hev2 : ev ∈ Event.callEv c :: evs := by
        cases r <;> simpa using hev
      rcases List.mem_cons.mp hev2 with h | h
      · exact ⟨c, h⟩
      · exact ih ev (by rw [hr]; exact h)

theorem runChunks_trace (w : World) :
    ∀ cs : List Text,
      (runChunks w cs).snd =
        (cs.take ((cs.takeWhile (translateOk w)).length + 1)).map Event.callEv := by
  intro cs
  induction cs with
  | nil => rfl
  | cons c rest ih =>
    rw [runChunks]
    cases htr : w.translate c with
    | error e =>
      have hok : translateOk w c = false := by simp [translateOk, htr]
      simp [List.takeWhile_cons, hok]
    | ok t =>
      have hok : translateOk w c = true := by simp [translateOk, htr]
      rcases hr : runChunks w rest with ⟨r, evs⟩
      rw [hr] at ih
      cases r <;> simp at ih <;> simp [List.takeWhile_cons, hok, ih]

theorem filter_isCallEv_map (xs : List Text) :
    (xs.map Event.callEv).filter isCallEv = xs.map Event.callEv := by
  induction xs with
  | nil => rfl
  | cons x rest ih => simp [List.filter_cons, isCallEv, ih]

theorem handleFailure_snd (w : World) (fp ff : FileName) (e : String)
    (evs : List Event) (original : Text) (hrd : w.read fp = Except.ok original) :
    (handleFailure w fp ff e evs).snd =
      evs ++ [Event.readEv fp, Event.writeEv ff original] := by
  unfold handleFailure
  rw [hrd]
  rcases hw : w.write ff original with ioe | u <;> simp [hw]

theorem handleFailure_fst_cases (w : World) (fp ff : FileName) (e : String)
    (evs : List Event) :
    (handleFailure w fp ff e evs).fst = Outcome.failure fp e ∨
    ∃ ioe, (handleFailure w fp ff e evs).fst = Outcome.critical fp ioe := by
  rcases hr : w.read fp with ioe | original
  · exact Or.inr ⟨ioe, by simp [handleFailure, hr]⟩
  · rcases hw : w.write ff original with ioe | u
    · exact Or.inr ⟨ioe, by simp [handleFailure, hr, hw]⟩
    · exact Or.inl (by simp [handleFailure, hr, hw])

theorem processSingleFile_error_eq (w : World) (fp : FileName) (content : Text)
    (e : String)
    (hex : w.fileExists (targetPath fp) = false)
    (hrd : w.read fp = Except.ok content)
    (hws : stripIsEmpty content = false)
    (herr : (runChunks w (splitTextIntoChunks content maxChunkSize)).fst =
      Except.error e) :
    processSingleFile w fp =
      handleFailure w fp (failurePath fp) e
        (Event.readEv fp ::
          (runChunks w (splitTextIntoChunks content maxChunkSize)).snd) := by
  unfold processSingleFile
  rcases hrc : runChunks w (splitTextIntoChunks content maxChunkSize) with ⟨r, evs⟩
  rw [hrc] at herr
  replace herr : r = Except.error e := herr
  subst herr
  simp [hex, hrd, hws, hrc]

/-- C3: when some chunk of a file fails to translate, the success
target `<stem>_DE.txt` is never written (no write event for it appears
in the trace, in any world), and — provided the failure-copy write goes
through, the case its own claim C9 carves out — the task writes the
failure-marked `<stem>_FAILURE_DE.txt` with exactly the original source
content and reports Failure carrying the triggering error. -/
theorem chunk_failure_writes_original (w : World) (fp : FileName) (content : Text)
    (e : String)
    (hex : w.fileExists (targetPath fp) = false)
    (hrd : w.read fp = Except.ok content)
    (hws : stripIsEmpty content = false)
    (herr : (runChunks w (splitTextIntoChunks content maxChunkSize)).fst =
      Except.error e) :
    (∀ t, Event.writeEv (targetPath fp) t ∉ (processSingleFile w fp).snd) ∧
    (∀ r, w.write (failurePath fp) content = Except.ok r →
      (processSingleFile w fp).fst = Outcome.failure fp e ∧
      Event.writeEv (failurePath fp) content ∈ (processSingleFile w fp).snd) := by
  have heq := processSingleFile_error_eq w fp content e hex hrd hws herr
  have hsnd := handleFailure_snd w fp (failurePath fp) e
    (Event.readEv fp :: (runChunks w (splitTextIntoChunks content maxChunkSize)).snd)
    content hrd
  constructor
  · intro t hmem
    rw [heq, hsnd] at hmem
    simp only [List.cons_append, List.mem_cons, List.mem_append,
      List.mem_singleton] at hmem
    rcases hmem with h | h | h | h
    · exact Event.noConfusion h
    · rcases runChunks_events w (splitTextIntoChunks content maxChunkSize) _ h with ⟨c, hc⟩
      exact Event.noConfusion hc
    · exact Event.noConfusion h
    · rcases h with h | h
      · injection h with h1 h2
        exact targetPath_ne_failurePath fp h1
      · simp at h
  · intro r hwr
    constructor
    · rw [heq]
      unfold handleFailure
      rw [hrd]
      simp [hwr]
    · rw [heq, hsnd]
      simp

theorem chunk_failure_writes_original_witness :
    (worldFail.fileExists (targetPath (String.toList "a.txt")) = false ∧
     worldFail.read (String.toList "a.txt") = Except.ok (String.toList "hi") ∧
     stripIsEmpty (String.toList "hi") = false ∧
     (runChunks worldFail (splitTextIntoChunks (String.toList "hi") maxChunkSize)).fst =
       Except.error "boom") ∧
    ((∀ t, Event.writeEv (targetPath (String.toList "a.txt")) t ∉
        (processSingleFile worldFail (String.toList "a.txt")).snd) ∧
     (∀ r, worldFail.write (failurePath (String.toList "a.txt")) (String.toList "hi") =
        Except.ok r →
      (processSingleFile worldFail (String.toList "a.txt")).fst =
        Outcome.failure (String.toList "a.txt") "boom" ∧
      Event.writeEv (failurePath (String.toList "a.txt")) (String.toList "hi") ∈
        (processSingleFile worldFail (String.toList "a.txt")).snd)) :=
  ⟨⟨rfl, rfl, rfl, rfl⟩,
    chunk_failure_writes_original worldFail (String.toList "a.txt")
      (String.toList "hi") "boom" rfl rfl rfl rfl⟩

theorem processSingleFile_filter_calls (w : World) (fp : FileName) (content : Text)
    (hex : w.fileExists (targetPath fp) = false)
    (hrd : w.read fp = Except.ok content)
    (hws : stripIsEmpty content = false) :
    (processSingleFile w fp).snd.filter isCallEv =
      (runChunks w (splitTextIntoChunks content maxChunkSize)).snd := by
  have hcalls := runChunks_events w (splitTextIntoChunks content maxChunkSize)
  have hfilter : (runChunks w (splitTextIntoChunks content maxChunkSize)).snd.filter
      isCallEv = (runChunks w (splitTextIntoChunks content maxChunkSize)).snd := by
    rw [runChunks_trace]
    exact filter_isCallEv_map _
  rcases hrc : runChunks w (splitTextIntoChunks content maxChunkSize) with ⟨r, evs⟩
  rw [hrc] at hfilter
  cases r with
  | error e =>
    have heq := processSingleFile_error_eq w fp content e hex hrd hws (by rw [hrc])
    rw [heq, handleFailure_snd w fp (failurePath fp) e _ content hrd, hrc]
    simp only [List.cons_append, List.filter_cons, List.filter_append]
    simpa [isCallEv] using hfilter
  | ok parts =>
    rcases hw : w.write (targetPath fp) (List.intercalate ['\n'] parts) with e2 | u
    · have heq : processSingleFile w fp =
          handleFailure w fp (failurePath fp) e2
            (Event.readEv fp :: evs ++
              [Event.writeEv (targetPath fp) (List.intercalate ['\n'] parts)]) := by
        unfold processSingleFile
        simp [hex, hrd, hws, hrc, hw]
      rw [heq, handleFailure_snd w fp (failurePath fp) e2 _ content hrd]
      simp only [List.cons_append, List.filter_cons, List.filter_append]
      simpa [isCallEv] using hfilter
    · have heq : processSingleFile w fp =
          (Outcome.success fp,
            Event.readEv fp :: evs ++
              [Event.writeEv (targetPath fp) (List.intercalate ['\n'] parts)]) := by
        unfold processSingleFile
        simp [hex, hrd, hws, hrc, hw]
      rw [heq]
      simp only [List.cons_append, List.filter_cons, List.filter_append]
      simpa [isCallEv] using hfilter

/-- C8: within one file the task performs its backend calls strictly
sequentially in original chunk order — the call events of the trace are
exactly the chunks up to and including the first failing one, in order —
so after a failed chunk no further chunk of that file reaches the
backend. -/
theorem chunks_called_in_order (w : World) (fp : FileName) (content : Text)
    (hex : w.fileExists (targetPath fp) = false)
    (hrd : w.read fp = Except.ok content)
    (hws : stripIsEmpty content = false) :
    (processSingleFile w fp).snd.filter isCallEv =
      ((splitTextIntoChunks content maxChunkSize).take
        (((splitTextIntoChunks content maxChunkSize).takeWhile
          (translateOk w)).length + 1)).map Event.callEv := by
  rw [processSingleFile_filter_calls w fp content hex hrd hws, runChunks_trace]

theorem chunks_called_in_order_witness :
    (worldFail.fileExists (targetPath (String.toList "b.txt")) = false ∧
     worldFail.read (String.toList "b.txt") = Except.ok (String.toList "hi") ∧
     stripIsEmpty (String.toList "hi") = false) ∧
    (processSingleFile worldFail (String.toList "b.txt")).snd.filter isCallEv =
      ((splitTextIntoChunks (String.toList "hi") maxChunkSize).take
        (((splitTextIntoChunks (String.toList "hi") maxChunkSize).takeWhile
          (translateOk worldFail)).length + 1)).map Event.callEv :=
  ⟨⟨rfl, rfl, rfl⟩,
    chunks_called_in_order worldFail (String.toList "b.txt") (String.toList "hi")
      rfl rfl rfl⟩

/-- C9: when a chunk of the file failed to translate and the write of
the failure-marked copy itself raises an I/O error, the task reports
the distinct critical outcome carrying that I/O error — an outcome that
is never equal to a normal Failure outcome. -/
theorem failure_copy_error_critical (w : World) (fp : FileName) (content : Text)
    (e ioe : String)
    (hex : w.fileExists (targetPath fp) = false)
    (hrd : w.read fp = Except.ok content)
    (hws : stripIsEmpty content = false)
    (herr : (runChunks w (splitTextIntoChunks content maxChunkSize)).fst =
      Except.error e)
    (hwf : w.write (failurePath fp) content = Except.error ioe) :
    (processSingleFile w fp).fst = Outcome.critical fp ioe ∧
    ∀ (n : FileName) (e1 e2 : String), Outcome.critical n e1 ≠ Outcome.failure n e2 := by
  constructor
  · rw [processSingleFile_error_eq w fp content e hex hrd hws herr]
    unfold handleFailure
    rw [hrd]
    simp [hwf]
  · intro n e1 e2 hcon
    exact Outcome.noConfusion hcon

theorem failure_copy_error_critical_witness :
    (worldCrit.fileExists (targetPath (String.toList "a.txt")) = false ∧
     worldCrit.read (String.toList "a.txt") = Except.ok (String.toList "hi") ∧
     stripIsEmpty (String.toList "hi") = false ∧
     (runChunks worldCrit (splitTextIntoChunks (String.toList "hi") maxChunkSize)).fst =
       Except.error "boom" ∧
     worldCrit.write (failurePath (String.toList "a.txt")) (String.toList "hi") =
       Except.error "disk") ∧
    ((processSingleFile worldCrit (String.toList "a.txt")).fst =
      Outcome.critical (String.toList "a.txt") "disk" ∧
     ∀ (n : FileName) (e1 e2 : String),
       Outcome.critical n e1 ≠ Outcome.failure n e2) :=
  ⟨⟨rfl, rfl, rfl, rfl, rfl⟩,
    failure_copy_error_critical worldCrit (String.toList "a.txt")
      (String.toList "hi") "boom" "disk" rfl rfl rfl rfl rfl⟩

/-- C10: the per-file task is total at its boundary: whatever the
filesystem and backend do, it returns one of the five outcome classes
for its own file (it never propagates an exception), and the aggregation
loop therefore counts every submitted file: one progress invocation per
eligible file, in any completion order. -/
theorem task_total_and_counted (w : World) (fp : FileName)
    (files order : List FileName) (h : order.Perm (eligibleFiles files)) :
    ((processSingleFile w fp).fst = Outcome.skippedExists fp ∨
     (processSingleFile w fp).fst = Outcome.skippedEmpty fp ∨
     (processSingleFile w fp).fst = Outcome.success fp ∨
     (∃ e, (processSingleFile w fp).fst = Outcome.failure fp e) ∨
     (∃ e, (processSingleFile w fp).fst = Outcome.critical fp e)) ∧
    (processFilesCalls files order).length = (eligibleFiles files).length := by
  constructor
  · by_cases hex : w.fileExists (targetPath fp) = true
    · left
      simp [processSingleFile, hex]
    · have hex2 : w.fileExists (targetPath fp) = false := by
        simpa using hex
      rcases hr : w.read fp with e | content
      · have heq : processSingleFile w fp =
            handleFailure w fp (failurePath fp) e [Event.readEv fp] := by
          unfold processSingleFile
          simp [hex2, hr]
        rw [heq]
        rcases handleFailure_fst_cases w fp (failurePath fp) e [Event.readEv fp]
          with hc | ⟨ioe, hc⟩
        · exact Or.inr (Or.inr (Or.inr (Or.inl ⟨e, hc⟩)))
        · exact Or.inr (Or.inr (Or.inr (Or.inr ⟨ioe, hc⟩)))
      · by_cases hws : stripIsEmpty content = true
        · right; left
          simp [processSingleFile, hex2, hr, hws]
        · have hws2 : stripIsEmpty content = false := by simpa using hws
          rcases hrc : runChunks w (splitTextIntoChunks content maxChunkSize)
            with ⟨r, evs⟩
          cases r with
          | error e =>
            have heq := processSingleFile_error_eq w fp content e hex2 hr hws2
              (by rw [hrc])
            rw [heq]
            rcases handleFailure_fst_cases w fp (failurePath fp) e
              (Event.readEv fp ::
                (runChunks w (splitTextIntoChunks content maxChunkSize)).snd)
              with hc | ⟨ioe, hc⟩
            · exact Or.inr (Or.inr (Or.inr (Or.inl ⟨e, hc⟩)))
            · exact Or.inr (Or.inr (Or.inr (Or.inr ⟨ioe, hc⟩)))
          | ok parts =>
            rcases hw : w.write (targetPath fp) (List.intercalate ['\n'] parts)
              with e2 | u
            · have heq : processSingleFile w fp =
                  handleFailure w fp (failurePath fp) e2
                    (Event.readEv fp :: evs ++
                      [Event.writeEv (targetPath fp)
                        (List.intercalate ['\n'] parts)]) := by
                unfold processSingleFile
                simp [hex2, hr, hws2, hrc, hw]
              rw [heq]
              rcases handleFailure_fst_cases w fp (failurePath fp) e2
                (Event.readEv fp :: evs ++
                  [Event.writeEv (targetPath fp) (List.intercalate ['\n'] parts)])
                with hc | ⟨ioe, hc⟩
              · exact Or.inr (Or.inr (Or.inr (Or.inl ⟨e2, hc⟩)))
              · exact Or.inr (Or.inr (Or.inr (Or.inr ⟨ioe, hc⟩)))
            · right; right; left
              unfold processSingleFile
              simp [hex2, hr, hws2, hrc, hw]
  · unfold processFilesCalls
    rw [progressAux_length, h.length_eq]

theorem task_total_and_counted_witness :
    ([String.toList "a.txt"].Perm (eligibleFiles [String.toList "a.txt"])) ∧
    (((processSingleFile worldCrit (String.toList "a.txt")).fst =
        Outcome.skippedExists (String.toList "a.txt") ∨
      (processSingleFile worldCrit (String.toList "a.txt")).fst =
        Outcome.skippedEmpty (String.toList "a.txt") ∨
      (processSingleFile worldCrit (String.toList "a.txt")).fst =
        Outcome.success (String.toList "a.txt") ∨
      (∃ e, (processSingleFile worldCrit (String.toList "a.txt")).fst =
        Outcome.failure (String.toList "a.txt") e) ∨
      (∃ e, (processSingleFile worldCrit (String.toList "a.txt")).fst =
        Outcome.critical (String.toList "a.txt") e)) ∧
     (processFilesCalls [String.toList "a.txt"] [String.toList "a.txt"]).length =
       (eligibleFiles [String.toList "a.txt"]).length) :=
  ⟨by decide,
    task_total_and_counted worldCrit (String.toList "a.txt")
      [String.toList "a.txt"] [String.toList "a.txt"] (by decide)⟩

end EpubTranslation
